import Mathlib

/-!
Verification of the Next.js project-structure crawler (`nextjs_crawler.py`).

The development shallowly embeds the crawler's data model and algorithms:

* `NextjsNode` mirrors the Python class `NextjsNode` (fields `name`, `path`,
  `node_type`, `children`; the derived flag `has_component` is the function
  `NextjsNode.has_component` since the Python constructor computes it from
  `node_type` and neither field is ever reassigned).
* The classifier regexes `PAGE_PATTERNS`, `LAYOUT_PATTERNS` and
  `DYNAMIC_ROUTE_PATTERN` are embedded by their matching semantics:
  `re.search(r'page\.(js|jsx|ts|tsx)$', f)` succeeds exactly when one of the
  four strings `page.js`, `page.jsx`, `page.ts`, `page.tsx` occurs at an
  end anchor of `f` — at the very end, or just before a trailing newline,
  since `$` (default flags) also matches there — and
  `re.search(r'\[(.+?)\]', s)` is embedded by an executable leftmost,
  non-greedy matcher (`reSearchDyn`).
* Filesystem trees are embedded as `FSDir`; `os.walk` (top-down) is
  `walkEntries`, and the `path_to_node` dict of `crawl_nextjs_project` is an
  insertion-ordered association list with Python-dict update semantics.
* `prune_tree` and `generate_mermaid` are translated function by function;
  the breadth-first emission loop of `generate_mermaid` becomes the
  tail-recursive `genLoop` over an explicit queue.
-/

/-- The `NextjsNode` class: `name`, `path`, `node_type` and the mutable list
`children`.  Children order is append order of `add_child`. -/
inductive NextjsNode : Type where
  | mk (name : String) (path : String) (node_type : String)
       (children : List NextjsNode)

namespace NextjsNode

/-- Field `self.name`. -/
def name : NextjsNode → String
  | .mk n _ _ _ => n

/-- Field `self.path`. -/
def path : NextjsNode → String
  | .mk _ p _ _ => p

/-- Field `self.node_type`. -/
def node_type : NextjsNode → String
  | .mk _ _ t _ => t

/-- Field `self.children`. -/
def children : NextjsNode → List NextjsNode
  | .mk _ _ _ cs => cs

/-- Field `self.has_component = node_type in ['page', 'layout']`; the Python
constructor derives it from `node_type`, and neither field is reassigned, so
it is a function of the node. -/
def has_component (n : NextjsNode) : Bool :=
  n.node_type = "page" ∨ n.node_type = "layout"

end NextjsNode

/-! ### Classifier: the regex models -/

/-- `re.search(r'\[(.+?)\]', s)`, the matcher for `DYNAMIC_ROUTE_PATTERN`,
restricted to what the crawler uses (success, and the text of group 1).
`scanClose acc rest` models matching `(.+?)\]` directly after a `[`:
the non-greedy group grows one character at a time (any character except a
newline, which `.` does not match), closing at the first `]` that leaves a
nonempty group. -/
def scanClose (acc : List Char) : List Char → Option (List Char)
  | [] => none
  | c :: rest =>
    if c = ']' ∧ acc ≠ [] then some acc.reverse
    else if c = '\n' then none
    else scanClose (c :: acc) rest

/-- `re.search` tries each start position left to right; a match must begin
with a literal `[`.  Returns group 1 of the leftmost match. -/
def reSearchDyn : List Char → Option (List Char)
  | [] => none
  | c :: rest =>
    if c = '[' then
      match scanClose [] rest with
      | some g => some g
      | none => reSearchDyn rest
    else reSearchDyn rest

/-- `PAGE_PATTERNS = [r'page\.(js|jsx|ts|tsx)$']`: the single pattern is
literal text followed by an alternation and the end anchor `$`, so a match
is one of these four strings placed at an end anchor. -/
def pageSuffixes : List String := ["page.js", "page.jsx", "page.ts", "page.tsx"]

/-- `LAYOUT_PATTERNS = [r'layout\.(js|jsx|ts|tsx)$']`, likewise. -/
def layoutSuffixes : List String :=
  ["layout.js", "layout.jsx", "layout.ts", "layout.tsx"]

/-- Python `$` with default flags matches at the end of the string and also
just before a newline that is the last character; so literal text `pat`
followed by `$` matches somewhere in `s` exactly when `s` ends with `pat`,
or ends with `pat` followed by one final newline. -/
def endAnchored (pat : List Char) (s : List Char) : Bool :=
  pat.isSuffixOf s || (pat ++ ['\n']).isSuffixOf s

/-- `is_page_file`: `any(re.search(pattern, filename) for pattern in PAGE_PATTERNS)`. -/
def is_page_file (filename : String) : Bool :=
  pageSuffixes.any (fun suf => endAnchored suf.data filename.data)

/-- `is_layout_file`: same over `LAYOUT_PATTERNS`. -/
def is_layout_file (filename : String) : Bool :=
  layoutSuffixes.any (fun suf => endAnchored suf.data filename.data)

/-- `is_dynamic_route`: `bool(re.search(DYNAMIC_ROUTE_PATTERN, dirname))`. -/
def is_dynamic_route (dirname : String) : Bool :=
  (reSearchDyn dirname.data).isSome

/-! ### Identifier, label and style generation -/

/-- One character step of `path.replace('/', '_').replace('.', '_').replace('-', '_')`
(each `str.replace` with single-character arguments rewrites exactly those
characters). -/
def replaceSeps (c : Char) : Char :=
  if c = '/' ∨ c = '.' ∨ c = '-' then '_' else c

/-- Python `\w` (default flags): a letter, a digit or an underscore.  Node
names come from filesystem entries; the ASCII reading of `\w` is used. -/
def isWordChar (c : Char) : Bool := c.isAlphanum || c = '_'

/-- One character of `re.sub(r'[^\w]', '_', clean_path)`: the class matches a
single non-word character, so the substitution is character-wise. -/
def subNonWord (c : Char) : Char := if isWordChar c then c else '_'

namespace NextjsNode

/-- `get_mermaid_id`: the two replacement passes over `self.path`. -/
def get_mermaid_id (n : NextjsNode) : String :=
  String.mk ((n.path.data.map replaceSeps).map subNonWord)

/-- `get_mermaid_label`: pages and layouts use their own name, dynamic nodes
the bracketed group of the first `DYNAMIC_ROUTE_PATTERN` match (falling back
to the raw name when there is no match), folders their own name. -/
def get_mermaid_label (n : NextjsNode) : String :=
  if n.node_type = "page" then n.name
  else if n.node_type = "layout" then n.name
  else if n.node_type = "dynamic" then
    match reSearchDyn n.name.data with
    | some g => "[" ++ String.mk g ++ "]"
    | none => n.name
  else n.name

/-- `get_mermaid_style`: a fixed style string per classified type, and the
empty string for everything else (Python falsiness filters it out later). -/
def get_mermaid_style (n : NextjsNode) : String :=
  if n.node_type = "page" then
    "style " ++ n.get_mermaid_id ++ " fill:#9f9,stroke:#6c6,stroke-width:1px"
  else if n.node_type = "layout" then
    "style " ++ n.get_mermaid_id ++ " fill:#ff9,stroke:#cc6,stroke-width:1px"
  else if n.node_type = "dynamic" then
    "style " ++ n.get_mermaid_id ++ " fill:#9cf,stroke:#69c,stroke-width:1px"
  else ""

end NextjsNode

/-! ### Subtree-component predicate and pruning -/

mutual
/-- `has_component_in_subtree`: true on the node itself or, recursing in
child order with short-circuit `or`, on some descendant. -/
def NextjsNode.has_component_in_subtree : NextjsNode → Bool
  | .mk nm p t cs =>
    (NextjsNode.mk nm p t cs).has_component || anyHasComponent cs

/-- The `for child in self.children` loop of `has_component_in_subtree`. -/
def anyHasComponent : List NextjsNode → Bool
  | [] => false
  | c :: cs => c.has_component_in_subtree || anyHasComponent cs
end

mutual
/-- `prune_tree`: rebuild `children` from the children whose subtree holds a
component, each recursively pruned; the node itself is always returned. -/
def prune_tree : NextjsNode → NextjsNode
  | .mk nm p t cs => .mk nm p t (pruneChildren cs)

/-- The `for child in node.children` loop of `prune_tree`: filter by
`has_component_in_subtree`, then recurse on the survivors. -/
def pruneChildren : List NextjsNode → List NextjsNode
  | [] => []
  | c :: cs =>
    if c.has_component_in_subtree then prune_tree c :: pruneChildren cs
    else pruneChildren cs
end

/-! ### Size measure and strong induction for `NextjsNode` -/

mutual
/-- Number of nodes in a tree (termination measure). -/
def nodeSize : NextjsNode → Nat
  | .mk _ _ _ cs => 1 + nodesSize cs

/-- Number of nodes in a forest. -/
def nodesSize : List NextjsNode → Nat
  | [] => 0
  | c :: cs => nodeSize c + nodesSize cs
end

theorem nodeSize_le_of_mem {c : NextjsNode} {cs : List NextjsNode}
    (h : c ∈ cs) : nodeSize c ≤ nodesSize cs := by
  induction cs with
  | nil => simp at h
  | cons d ds ih =>
    rcases List.mem_cons.mp h with rfl | h
    · simp [nodesSize]
    · have := ih h; simp [nodesSize]; omega

theorem nodesSize_append (a b : List NextjsNode) :
    nodesSize (a ++ b) = nodesSize a + nodesSize b := by
  induction a with
  | nil => simp [nodesSize]
  | cons c cs ih => simp [nodesSize, ih]; omega

/-- Strong induction over `NextjsNode`: prove a property from its truth on
all children. -/
theorem nextjsNodeInd {motive : NextjsNode → Prop}
    (h : ∀ nm p t cs, (∀ c ∈ cs, motive c) → motive (.mk nm p t cs)) :
    ∀ n, motive n
  | .mk nm p t cs => h nm p t cs (fun c hc => nextjsNodeInd h c)
termination_by n => nodeSize n
decreasing_by
  have := nodeSize_le_of_mem hc
  simp [nodeSize]; omega

/-! ### Subtree enumeration (specification side) -/

mutual
/-- All subtrees of a tree, the tree itself first, then children in order. -/
def allSubtrees : NextjsNode → List NextjsNode
  | .mk nm p t cs => .mk nm p t cs :: allSubtreesL cs

/-- All subtrees of each tree of a forest, in order. -/
def allSubtreesL : List NextjsNode → List NextjsNode
  | [] => []
  | c :: cs => allSubtrees c ++ allSubtreesL cs
end

/-- The subtrees strictly below a node. -/
def strictSubtrees (n : NextjsNode) : List NextjsNode := allSubtreesL n.children

/-! ### List-level restatements of the loop helpers -/

theorem anyHasComponent_eq (cs : List NextjsNode) :
    anyHasComponent cs = cs.any NextjsNode.has_component_in_subtree := by
  induction cs with
  | nil => rfl
  | cons c cs ih => simp [anyHasComponent, ih]

theorem pruneChildren_eq (cs : List NextjsNode) :
    pruneChildren cs =
      (cs.filter NextjsNode.has_component_in_subtree).map prune_tree := by
  induction cs with
  | nil => rfl
  | cons c cs ih =>
    by_cases h : c.has_component_in_subtree = true
    · simp [pruneChildren, h, List.filter_cons, ih]
    · simp only [Bool.not_eq_true] at h
      simp [pruneChildren, h, List.filter_cons, ih]

theorem allSubtreesL_append (a b : List NextjsNode) :
    allSubtreesL (a ++ b) = allSubtreesL a ++ allSubtreesL b := by
  induction a with
  | nil => rfl
  | cons c cs ih => simp [allSubtreesL, ih]

theorem mem_allSubtreesL {s : NextjsNode} {cs : List NextjsNode} :
    s ∈ allSubtreesL cs ↔ ∃ c ∈ cs, s ∈ allSubtrees c := by
  induction cs with
  | nil => simp [allSubtreesL]
  | cons c cs ih =>
    simp only [allSubtreesL, List.mem_append, ih, List.mem_cons]
    constructor
    · rintro (h | ⟨d, hd, hs⟩)
      · exact ⟨c, Or.inl rfl, h⟩
      · exact ⟨d, Or.inr hd, hs⟩
    · rintro ⟨d, (rfl | hd), hs⟩
      · exact Or.inl hs
      · exact Or.inr ⟨d, hd, hs⟩

theorem prune_tree_mk (nm p t : String) (cs : List NextjsNode) :
    prune_tree (.mk nm p t cs) = .mk nm p t (pruneChildren cs) := by
  rw [prune_tree]

/-! ### Component flags of subtrees -/

theorem hasComp_eq_any_subtree : ∀ n : NextjsNode,
    n.has_component_in_subtree = (allSubtrees n).any NextjsNode.has_component := by
  refine nextjsNodeInd ?_
  intro nm p t cs ih
  rw [NextjsNode.has_component_in_subtree, anyHasComponent_eq, allSubtrees]
  simp only [List.any_cons]
  congr 1
  induction cs with
  | nil => rfl
  | cons c cs ihl =>
    simp only [List.any_cons, allSubtreesL, allSubtreesL_append, List.any_append]
    rw [ih c (List.mem_cons_self c cs),
        ihl (fun d hd => ih d (List.mem_cons_of_mem c hd))]

theorem subtree_hasComp_false {n : NextjsNode}
    (h : n.has_component_in_subtree = false) :
    ∀ s ∈ allSubtrees n, s.has_component_in_subtree = false := by
  induction n using nextjsNodeInd with
  | _ nm p t cs ih =>
    intro s hs
    rw [allSubtrees, List.mem_cons] at hs
    rw [NextjsNode.has_component_in_subtree, anyHasComponent_eq,
        Bool.or_eq_false_iff, List.any_eq_false] at h
    rcases hs with rfl | hs
    · rw [NextjsNode.has_component_in_subtree, anyHasComponent_eq,
          Bool.or_eq_false_iff, List.any_eq_false]
      exact h
    · obtain ⟨c, hc, hsc⟩ := mem_allSubtreesL.mp hs
      have hcf : c.has_component_in_subtree = false := by
        have := h.2 c hc
        simpa using this
      exact ih c hc hcf s hsc

theorem filter_hasComp_nil {c : NextjsNode}
    (h : c.has_component_in_subtree = false) :
    (allSubtrees c).filter NextjsNode.has_component_in_subtree = [] := by
  rw [List.filter_eq_nil]
  intro s hs
  simp [subtree_hasComp_false h s hs]

theorem allSubtreesL_prune (cs : List NextjsNode)
    (ih : ∀ c ∈ cs, c.has_component_in_subtree = true →
      allSubtrees (prune_tree c) =
        ((allSubtrees c).filter NextjsNode.has_component_in_subtree).map prune_tree) :
    allSubtreesL (pruneChildren cs) =
      ((allSubtreesL cs).filter NextjsNode.has_component_in_subtree).map prune_tree := by
  induction cs with
  | nil => rfl
  | cons c cs ihl =>
    rw [allSubtreesL, List.filter_append, List.map_append,
        ← ihl (fun d hd h => ih d (List.mem_cons_of_mem c hd) h)]
    by_cases h : c.has_component_in_subtree = true
    · rw [pruneChildren, if_pos h, allSubtreesL, ih c (List.mem_cons_self c cs) h]
    · simp only [Bool.not_eq_true] at h
      rw [pruneChildren, if_neg (by simp [h]), filter_hasComp_nil h]
      simp

theorem allSubtrees_prune : ∀ n : NextjsNode, n.has_component_in_subtree = true →
    allSubtrees (prune_tree n) =
      ((allSubtrees n).filter NextjsNode.has_component_in_subtree).map prune_tree := by
  refine nextjsNodeInd ?_
  intro nm p t cs ih h
  rw [prune_tree_mk, allSubtrees, allSubtrees, List.filter_cons, if_pos (by simpa using h),
      List.map_cons, prune_tree_mk, allSubtreesL_prune cs ih]

/-- C2: for every tree, the root node is always returned by `prune_tree` with
its `name`, `path` and `node_type` unchanged (never removed, even with no
component anywhere beneath it); the strict subtrees surviving pruning are
exactly the (recursively pruned) strict subtrees whose
`has_component_in_subtree` holds; and `has_component_in_subtree` is true iff
`has_component` holds for the node itself or for at least one descendant. -/
theorem claim_C2_prune_survival (n : NextjsNode) :
    (prune_tree n).name = n.name ∧
    (prune_tree n).path = n.path ∧
    (prune_tree n).node_type = n.node_type ∧
    strictSubtrees (prune_tree n) =
      ((strictSubtrees n).filter NextjsNode.has_component_in_subtree).map prune_tree ∧
    n.has_component_in_subtree =
      (n.has_component || (strictSubtrees n).any NextjsNode.has_component) := by
  obtain ⟨nm, p, t, cs⟩ := n
  refine ⟨by rw [prune_tree_mk]; rfl, by rw [prune_tree_mk]; rfl,
          by rw [prune_tree_mk]; rfl, ?_, ?_⟩
  · show strictSubtrees (prune_tree (.mk nm p t cs)) = _
    rw [prune_tree_mk, strictSubtrees, strictSubtrees]
    exact allSubtreesL_prune cs (fun c _ h => allSubtrees_prune c h)
  · rw [hasComp_eq_any_subtree, allSubtrees, strictSubtrees, List.any_cons]
    rfl

/-- Pruning does not change whether a subtree holds a component. -/
theorem hasComp_prune : ∀ n : NextjsNode,
    (prune_tree n).has_component_in_subtree = n.has_component_in_subtree := by
  refine nextjsNodeInd ?_
  intro nm p t cs ih
  rw [prune_tree_mk, NextjsNode.has_component_in_subtree,
      NextjsNode.has_component_in_subtree]
  congr 1
  induction cs with
  | nil => rfl
  | cons c cs ihl =>
    by_cases h : c.has_component_in_subtree = true
    · rw [pruneChildren, if_pos h, anyHasComponent, anyHasComponent,
          ih c (List.mem_cons_self c cs), h,
          ihl (fun d hd => ih d (List.mem_cons_of_mem c hd))]
    · simp only [Bool.not_eq_true] at h
      rw [pruneChildren, if_neg (by simp [h]), anyHasComponent, h,
          ihl (fun d hd => ih d (List.mem_cons_of_mem c hd))]
      simp

/-- C3: pruning is idempotent. -/
theorem claim_C3_prune_idempotent : ∀ n : NextjsNode,
    prune_tree (prune_tree n) = prune_tree n := by
  refine nextjsNodeInd ?_
  intro nm p t cs ih
  rw [prune_tree_mk, prune_tree_mk]
  congr 1
  induction cs with
  | nil => rfl
  | cons c cs ihl =>
    by_cases h : c.has_component_in_subtree = true
    · rw [pruneChildren, if_pos h, pruneChildren, if_pos (by rw [hasComp_prune c]; exact h),
          ih c (List.mem_cons_self c cs),
          ihl (fun d hd => ih d (List.mem_cons_of_mem c hd))]
    · simp only [Bool.not_eq_true] at h
      rw [pruneChildren, if_neg (by simp [h]),
          ihl (fun d hd => ih d (List.mem_cons_of_mem c hd))]

/-! ### C7: pages and layouts are mutually exclusive -/

/-- C7: no filename classifies as both a page file and a layout file: every
page pattern places `page.<ext>` at an end anchor (the very end, or just
before one trailing newline), every layout pattern `layout.<ext>`, and no
two such anchored occurrences can coexist in one string. -/
theorem claim_C7_page_layout_exclusive (f : String) :
    (is_page_file f && is_layout_file f) = false := by
  cases hp : is_page_file f with
  | false => rfl
  | true =>
    rw [Bool.true_and]
    rw [is_page_file, List.any_eq_true] at hp
    obtain ⟨sp, hpmem, hpsuf⟩ := hp
    rw [endAnchored, Bool.or_eq_true, List.isSuffixOf_iff_suffix,
        List.isSuffixOf_iff_suffix] at hpsuf
    rw [is_layout_file, List.any_eq_false]
    intro sl hlmem
    rw [Bool.not_eq_true, endAnchored, Bool.or_eq_false_iff,
        ← Bool.not_eq_true, ← Bool.not_eq_true, List.isSuffixOf_iff_suffix,
        List.isSuffixOf_iff_suffix]
    constructor <;> intro hlsuf
    all_goals {
      rw [pageSuffixes] at hpmem
      rw [layoutSuffixes] at hlmem
      simp only [List.mem_cons, List.not_mem_nil, or_false] at hpmem hlmem
      rcases hpmem with rfl | rfl | rfl | rfl <;>
        rcases hlmem with rfl | rfl | rfl | rfl <;>
        rcases hpsuf with hps | hps <;>
        rcases List.suffix_or_suffix_of_suffix hps hlsuf with h | h <;>
        exact absurd h (by decide)
    }

/-! ### C1: identifier generation -/

theorem word_chars_fixed {l : List Char} (h : l.all isWordChar = true) :
    (l.map replaceSeps).map subNonWord = l := by
  induction l with
  | nil => rfl
  | cons c cs ih =>
    rw [List.all_cons, Bool.and_eq_true] at h
    obtain ⟨hc, hcs⟩ := h
    rw [List.map_cons, List.map_cons, ih hcs]
    have h1 : replaceSeps c = c := by
      rw [replaceSeps, if_neg]
      rintro (rfl | rfl | rfl) <;> exact absurd hc (by decide)
    rw [h1, subNonWord, if_pos hc]

/-- C1 (amended): `get_mermaid_id` is injective on nodes whose paths consist
only of word characters (letters, digits, underscore); and identifier
generation is a pure function of the path, hence deterministic.  (The claim's
full injectivity over all walk-producible paths is refuted by
`claim_C1_counterexample` below: paths differing only in the separator
characters collapse.) -/
theorem claim_C1_id_injective_on_word_paths (p q : NextjsNode)
    (hp : p.path.data.all isWordChar = true)
    (hq : q.path.data.all isWordChar = true)
    (h : p.get_mermaid_id = q.get_mermaid_id) : p.path = q.path := by
  rw [NextjsNode.get_mermaid_id, NextjsNode.get_mermaid_id,
      word_chars_fixed hp, word_chars_fixed hq] at h
  exact h

theorem claim_C1_witness :
    (("app" : String).data.all isWordChar = true) ∧
    (NextjsNode.mk "about" "app" "folder" []).path =
      (NextjsNode.mk "page.tsx" "app" "page" []).path :=
  ⟨by decide,
   claim_C1_id_injective_on_word_paths
     (NextjsNode.mk "about" "app" "folder" [])
     (NextjsNode.mk "page.tsx" "app" "page" [])
     (by decide) (by decide) rfl⟩

/-! ### C8/C10: the dynamic-route matcher -/

/-- A string (as a character list) contains a bracket pair in the sense of
`DYNAMIC_ROUTE_PATTERN = r'\[(.+?)\]'`: an opening bracket, at least one
non-newline character, then a closing bracket. -/
def hasBracketSeg (s : List Char) : Prop :=
  ∃ a m b, s = a ++ '[' :: (m ++ ']' :: b) ∧ m ≠ [] ∧ '\n' ∉ m

theorem scanClose_sound {acc rest : List Char} {g : List Char}
    (h : scanClose acc rest = some g) :
    ∃ m b, rest = m ++ ']' :: b ∧ g = acc.reverse ++ m ∧ '\n' ∉ m ∧
      (acc ≠ [] ∨ m ≠ []) := by
  induction rest generalizing acc with
  | nil => simp [scanClose] at h
  | cons c rest ih =>
    rw [scanClose] at h
    by_cases hcl : c = ']' ∧ acc ≠ []
    · rw [if_pos hcl] at h
      obtain ⟨rfl, hacc⟩ := hcl
      refine ⟨[], rest, by simp, by simpa using h.symm, by simp, Or.inl hacc⟩
    · rw [if_neg hcl] at h
      by_cases hnl : c = '\n'
      · rw [if_pos hnl] at h; exact absurd h (by simp)
      · rw [if_neg hnl] at h
        obtain ⟨m, b, hrest, hg, hm, _⟩ := ih h
        refine ⟨c :: m, b, by rw [hrest]; rfl, ?_, ?_, Or.inr (by simp)⟩
        · rw [hg, List.reverse_cons, List.append_assoc]; rfl
        · simp only [List.mem_cons, not_or]
          exact ⟨fun hc => hnl hc.symm, hm⟩

theorem scanClose_complete :
    ∀ (m : List Char) (acc b : List Char), '\n' ∉ m → (acc ≠ [] ∨ m ≠ []) →
      (scanClose acc (m ++ ']' :: b)).isSome = true := by
  intro m
  induction m with
  | nil =>
    intro acc b _ hne
    rcases hne with hacc | hm
    · rw [List.nil_append, scanClose, if_pos ⟨rfl, hacc⟩]; rfl
    · exact absurd rfl hm
  | cons c m ih =>
    intro acc b hnl _
    simp only [List.mem_cons, not_or] at hnl
    rw [List.cons_append, scanClose]
    by_cases hcl : c = ']' ∧ acc ≠ []
    · rw [if_pos hcl]; rfl
    · rw [if_neg hcl, if_neg (fun hc => hnl.1 hc.symm)]
      exact ih (c :: acc) b hnl.2 (Or.inl (by simp))

theorem reSearchDyn_complete {s : List Char} (h : hasBracketSeg s) :
    (reSearchDyn s).isSome = true := by
  obtain ⟨a, m, b, rfl, hm, hnl⟩ := h
  induction a with
  | nil =>
    rw [List.nil_append, reSearchDyn, if_pos rfl]
    have := scanClose_complete m [] b hnl (Or.inr hm)
    obtain ⟨g, hg⟩ := Option.isSome_iff_exists.mp this
    rw [hg]
    rfl
  | cons c a ih =>
    rw [List.cons_append, reSearchDyn]
    by_cases hc : c = '['
    · rw [if_pos hc]
      cases hsc : scanClose [] (a ++ '[' :: (m ++ ']' :: b)) with
      | some g => rfl
      | none => exact ih
    · rw [if_neg hc]
      exact ih

theorem reSearchDyn_sound {s g : List Char} (h : reSearchDyn s = some g) :
    ∃ a b, s = a ++ '[' :: (g ++ ']' :: b) ∧ g ≠ [] ∧ '\n' ∉ g := by
  induction s with
  | nil => simp [reSearchDyn] at h
  | cons c rest ih =>
    rw [reSearchDyn] at h
    by_cases hc : c = '['
    · rw [if_pos hc] at h
      cases hsc : scanClose [] rest with
      | some g' =>
        rw [hsc] at h
        have hg' : g = g' := by simpa using h.symm
        obtain ⟨m, b, hrest, hgm, hnl, hne⟩ := scanClose_sound hsc
        have hgm' : g = m := by rw [hg']; simpa using hgm
        refine ⟨[], b, ?_, ?_, ?_⟩
        · rw [List.nil_append, hc, hrest, hgm']
        · rw [hgm']; exact hne.resolve_left (fun hf => absurd rfl hf)
        · rw [hgm']; exact hnl
      | none =>
        rw [hsc] at h
        obtain ⟨a, b, hrest, hne, hnl⟩ := ih h
        exact ⟨c :: a, b, by rw [hrest]; rfl, hne, hnl⟩
    · rw [if_neg hc] at h
      obtain ⟨a, b, hrest, hne, hnl⟩ := ih h
      exact ⟨c :: a, b, by rw [hrest]; rfl, hne, hnl⟩

/-- C8: for a node of type `dynamic`, label generation is total (the match
and the fallback are the only outcomes, no exception path): if the name
contains a bracket pair, the label is the bracketed parameter name (group 1
of the leftmost match, rendered inside brackets); otherwise the raw name is
returned. -/
theorem claim_C8_dynamic_label_total (n : NextjsNode)
    (h : n.node_type = "dynamic") :
    (¬ hasBracketSeg n.name.data → n.get_mermaid_label = n.name) ∧
    (hasBracketSeg n.name.data →
      ∃ a g b, n.name.data = a ++ '[' :: (g ++ ']' :: b) ∧ g ≠ [] ∧
        n.get_mermaid_label = "[" ++ String.mk g ++ "]") := by
  have hlab : n.get_mermaid_label =
      (match reSearchDyn n.name.data with
       | some g => "[" ++ String.mk g ++ "]"
       | none => n.name) := by
    rw [NextjsNode.get_mermaid_label, if_neg (by rw [h]; decide),
        if_neg (by rw [h]; decide), if_pos h]
  constructor
  · intro hno
    cases hre : reSearchDyn n.name.data with
    | some g =>
      obtain ⟨a, b, hdec, hne, hnl⟩ := reSearchDyn_sound hre
      exact absurd ⟨a, g, b, hdec, hne, hnl⟩ hno
    | none => rw [hlab, hre]
  · intro hyes
    have := reSearchDyn_complete hyes
    obtain ⟨g, hg⟩ := Option.isSome_iff_exists.mp this
    obtain ⟨a, b, hdec, hne, _⟩ := reSearchDyn_sound hg
    exact ⟨a, g, b, hdec, hne, by rw [hlab, hg]⟩

theorem claim_C8_witness :
    ((NextjsNode.mk "[slug]" "app/[slug]" "dynamic" []).node_type = "dynamic") ∧
    ((¬ hasBracketSeg ("[slug]" : String).data →
        (NextjsNode.mk "[slug]" "app/[slug]" "dynamic" []).get_mermaid_label = "[slug]") ∧
     (hasBracketSeg ("[slug]" : String).data →
       ∃ a g b, ("[slug]" : String).data = a ++ '[' :: (g ++ ']' :: b) ∧ g ≠ [] ∧
         (NextjsNode.mk "[slug]" "app/[slug]" "dynamic" []).get_mermaid_label =
           "[" ++ String.mk g ++ "]")) :=
  ⟨rfl, claim_C8_dynamic_label_total (NextjsNode.mk "[slug]" "app/[slug]" "dynamic" []) rfl⟩

/-- The node-type expression of the walk:
`'dynamic' if is_dynamic_route(dirname) else 'folder'`. -/
def classifyDirname (dirname : String) : String :=
  if is_dynamic_route dirname then "dynamic" else "folder"

/-- The node-type expression for qualifying files:
`'page' if is_page_file(filename) else 'layout'` (only evaluated when the
file is a page or layout file). -/
def classifyFilename (filename : String) : String :=
  if is_page_file filename then "page" else "layout"

/-- C10: the name `[]` (an empty bracket pair) is not a dynamic route, so the
walk classifies such a directory as `folder`; in general a positive
`is_dynamic_route` requires an opening bracket, at least one character, and a
closing bracket in the name. -/
theorem claim_C10_empty_brackets_folder :
    is_dynamic_route "[]" = false ∧
    classifyDirname "[]" = "folder" ∧
    ∀ s : String, is_dynamic_route s = true →
      ∃ a m b, s.data = a ++ '[' :: (m ++ ']' :: b) ∧ m ≠ [] := by
  refine ⟨by decide, by decide, ?_⟩
  intro s hs
  rw [is_dynamic_route] at hs
  obtain ⟨g, hg⟩ := Option.isSome_iff_exists.mp hs
  obtain ⟨a, b, hdec, hne, _⟩ := reSearchDyn_sound hg
  exact ⟨a, g, b, hdec, hne⟩

theorem claim_C10_witness :
    (is_dynamic_route "[slug]" = true) ∧
    (∃ a m b, ("[slug]" : String).data = a ++ '[' :: (m ++ ']' :: b) ∧ m ≠ []) :=
  ⟨by decide, claim_C10_empty_brackets_folder.2.2 "[slug]" (by decide)⟩

/-! ### The filesystem model and the walk -/

/-- An existing directory: its name, subdirectories and files, each list in
filesystem enumeration order (the order `os.walk` reports). -/
inductive FSDir : Type where
  | mk (name : String) (dirs : List FSDir) (files : List String)

namespace FSDir

/-- Directory name. -/
def name : FSDir → String
  | .mk n _ _ => n

/-- Subdirectories. -/
def dirs : FSDir → List FSDir
  | .mk _ ds _ => ds

/-- Files. -/
def files : FSDir → List String
  | .mk _ _ fs => fs

end FSDir

mutual
/-- Number of directories of a tree (termination measure). -/
def fsSize : FSDir → Nat
  | .mk _ ds _ => 1 + fsListSize ds

/-- Number of directories of a forest. -/
def fsListSize : List FSDir → Nat
  | [] => 0
  | d :: ds => fsSize d + fsListSize ds
end

theorem fsSize_le_of_mem {d : FSDir} {ds : List FSDir} (h : d ∈ ds) :
    fsSize d ≤ fsListSize ds := by
  induction ds with
  | nil => simp at h
  | cons e es ih =>
    rcases List.mem_cons.mp h with rfl | h
    · simp [fsListSize]
    · have := ih h; simp [fsListSize]; omega

/-- Strong induction over `FSDir`. -/
theorem fsDirInd {motive : FSDir → Prop}
    (h : ∀ nm ds fs, (∀ d ∈ ds, motive d) → motive (.mk nm ds fs)) :
    ∀ d, motive d
  | .mk nm ds fs => h nm ds fs (fun d hd => fsDirInd h d)
termination_by d => fsSize d
decreasing_by
  have := fsSize_le_of_mem hd
  simp [fsSize]; omega

mutual
/-- `os.walk(root_path)` top-down, with relative paths already resolved
against the root's parent directory: each visited directory yields
`(rel_path, dirnames, filenames)`, the root first, then each subdirectory's
subtree in enumeration order. -/
def walkEntries (relPath : String) : FSDir → List (String × List String × List String)
  | .mk _ ds fs => (relPath, ds.map FSDir.name, fs) :: walkList relPath ds

/-- The recursive descents of `os.walk` below one directory. -/
def walkList (relPath : String) : List FSDir → List (String × List String × List String)
  | [] => []
  | d :: ds => walkEntries (relPath ++ "/" ++ d.name) d ++ walkList relPath ds
end

/-- One crawl node as stored in the `path_to_node` dict (its `path` is the
dict key; `children` links do not affect the mapping). -/
structure CrawlNode where
  name : String
  node_type : String

/-- Python dict assignment `d[k] = v`: update in place if the key exists
(keeping its position), append otherwise. -/
def dictInsert (st : List (String × CrawlNode)) (k : String) (v : CrawlNode) :
    List (String × CrawlNode) :=
  if k ∈ st.map Prod.fst then
    st.map (fun kv => if kv.1 = k then (k, v) else kv)
  else st ++ [(k, v)]

/-- `os.path.basename`: the part after the last slash. -/
def os_basename (s : String) : String :=
  String.mk ((s.data.reverse.takeWhile (fun c => c ≠ '/')).reverse)

/-- `os.path.dirname`: the part before the last slash (empty when there is
no slash). -/
def os_dirname (s : String) : String :=
  String.mk (((s.data.reverse.dropWhile (fun c => c ≠ '/')).drop 1).reverse)

/-- The body of the `for dirpath, dirnames, filenames in os.walk(...)` loop
of `crawl_nextjs_project`, restricted to its effect on `path_to_node`:
reuse the current directory's node when its path is mapped, otherwise create
and register one; then register a node per subdirectory and per qualifying
file (`add_child` mutates nodes, not the dict). -/
def processEntry (st : List (String × CrawlNode))
    (e : String × List String × List String) : List (String × CrawlNode) :=
  let relPath := e.1
  let dirnames := e.2.1
  let filenames := e.2.2
  let st1 :=
    if relPath ∈ st.map Prod.fst then st
    else dictInsert st relPath
      ⟨os_basename relPath, classifyDirname (os_basename relPath)⟩
  let st2 := dirnames.foldl (fun s dn =>
    dictInsert s (relPath ++ "/" ++ dn) ⟨dn, classifyDirname dn⟩) st1
  filenames.foldl (fun s fn =>
    if is_page_file fn || is_layout_file fn then
      dictInsert s (relPath ++ "/" ++ fn) ⟨fn, classifyFilename fn⟩
    else s) st2

/-- The `path_to_node` mapping after the walk, seeded with the root node
(`path_to_node = {root_name: root}`). -/
def path_to_node (root : FSDir) : List (String × CrawlNode) :=
  (walkEntries root.name root).foldl processEntry
    [(root.name, ⟨root.name, "folder"⟩)]

/-- The keys of the mapping, in insertion order. -/
def keysOf (st : List (String × CrawlNode)) : List String := st.map Prod.fst

/-! ### The tree built by the walk -/

/-- The file-loop of the walk: one leaf node per qualifying file, typed
`page` or `layout`, in enumeration order; other files are invisible. -/
def buildFiles (relPath : String) (fs : List String) : List NextjsNode :=
  fs.filterMap (fun fn =>
    if is_page_file fn || is_layout_file fn then
      some (.mk fn (relPath ++ "/" ++ fn) (classifyFilename fn) [])
    else none)

mutual
/-- The node the walk produces for a directory at `relPath` of type `typ`:
its children are the subdirectory nodes (appended when this directory is
visited) followed by its qualifying file leaves; descending into a
subdirectory later fills in that child's own children.  This is the
bottom-up reading of the walk's pre-registration protocol. -/
def buildDir (relPath typ : String) : FSDir → NextjsNode
  | .mk nm ds fs =>
    .mk nm relPath typ (buildDirs relPath ds ++ buildFiles relPath fs)

/-- The subdirectory children of one visited directory, in order. -/
def buildDirs (relPath : String) : List FSDir → List NextjsNode
  | [] => []
  | d :: ds =>
    buildDir (relPath ++ "/" ++ d.name) (classifyDirname d.name) d ::
      buildDirs relPath ds
end

/-- `crawl_nextjs_project(root_path)`.  A missing root path is the
`sys.exit(1)` branch, modelled as a terminal error with no tree; otherwise
the walk builds and returns the root node (named and pathed by the root's
basename, default type `folder`). -/
def crawl_nextjs_project (fs : Option FSDir) : Except String NextjsNode :=
  match fs with
  | none => Except.error "Error: Path does not exist"
  | some d => Except.ok (buildDir d.name "folder" d)

/-- A concrete project: root `r` holding a directory named `a.b` and a
directory `a` with a subdirectory `b`.  The walk produces both relative
paths `r/a.b` and `r/a/b`. -/
def fsC1 : FSDir :=
  .mk "r" [.mk "a.b" [] [], .mk "a" [.mk "b" [] []] []] []

/-- C1 is false as stated: the walk on `fsC1` produces the two distinct
paths `r/a.b` and `r/a/b` (both are paths of nodes of the built tree), yet
`get_mermaid_id` maps both to `r_a_b`, because `/` and `.` are replaced by
the same underscore. -/
theorem claim_C1_counterexample :
    ("r/a.b" ∈ (allSubtrees (buildDir "r" "folder" fsC1)).map NextjsNode.path) ∧
    ("r/a/b" ∈ (allSubtrees (buildDir "r" "folder" fsC1)).map NextjsNode.path) ∧
    ("r/a.b" : String) ≠ "r/a/b" ∧
    NextjsNode.get_mermaid_id (NextjsNode.mk "a.b" "r/a.b" "folder" []) =
      NextjsNode.get_mermaid_id (NextjsNode.mk "b" "r/a/b" "folder" []) ∧
    NextjsNode.get_mermaid_id (NextjsNode.mk "a.b" "r/a.b" "folder" []) = "r_a_b" := by
  refine ⟨?_, ?_, by decide, by decide, by decide⟩ <;>
    · simp only [fsC1, buildDir, buildDirs, buildFiles, allSubtrees, allSubtreesL,
        NextjsNode.path, FSDir.name, List.filterMap_nil, List.append_nil,
        List.map_cons, List.map_nil, List.mem_cons]
      decide

/-! ### The mermaid emitter -/

theorem nodeSize_pos (n : NextjsNode) : 0 < nodeSize n := by
  obtain ⟨nm, p, t, cs⟩ := n
  rw [nodeSize]
  omega

/-- A node declaration line: `    {node_id}["{label}"]` with the braces
filled in. -/
def declLine (n : NextjsNode) : String :=
  "    " ++ n.get_mermaid_id ++ "[\"" ++ n.get_mermaid_label ++ "\"]"

/-- An edge line: `    {node_id} --> {child_id}` with the braces filled in. -/
def edgeLine (n c : NextjsNode) : String :=
  "    " ++ n.get_mermaid_id ++ " --> " ++ c.get_mermaid_id

/-- An indented style line. -/
def styleLine (n : NextjsNode) : String := "    " ++ n.get_mermaid_style

/-- The `while queue:` loop of `generate_mermaid`, carrying the queue, the
visited identifier set and the three output sections (`mermaid_lines`,
`edges`, `styles`).  A dequeued node whose identifier was already visited is
skipped; otherwise its declaration line, optional style line, and one edge
plus queue entry per child are appended. -/
def genLoop : List NextjsNode → List String → List String → List String →
    List String → List String × List String × List String
  | [], _, lines, edges, styles => (lines, edges, styles)
  | node :: rest, visited, lines, edges, styles =>
    if node.get_mermaid_id ∈ visited then
      genLoop rest visited lines edges styles
    else
      genLoop (rest ++ node.children) (visited ++ [node.get_mermaid_id])
        (lines ++ [declLine node])
        (edges ++ node.children.map (edgeLine node))
        (if node.get_mermaid_style ≠ "" then styles ++ [styleLine node]
         else styles)
termination_by q => nodesSize q
decreasing_by
  · have := nodeSize_pos node
    simp [nodesSize]
    omega
  · have := nodeSize_pos node
    obtain ⟨nm, p, t, cs⟩ := node
    simp [nodesSize_append, nodesSize, nodeSize, NextjsNode.children]
    omega

/-- `generate_mermaid`: run the loop from the root with the header line
already in place, then join declarations, edges and styles with newlines. -/
def generate_mermaid (root_node : NextjsNode) : String :=
  let r := genLoop [root_node] [] ["flowchart TD"] [] []
  String.intercalate "\n" (r.1 ++ r.2.1 ++ r.2.2)

/-- Specification-side breadth-first visit: the nodes `genLoop` actually
processes (dequeues and does not skip), in order. -/
def bfsVisit : List NextjsNode → List String → List NextjsNode
  | [], _ => []
  | node :: rest, visited =>
    if node.get_mermaid_id ∈ visited then bfsVisit rest visited
    else
      node :: bfsVisit (rest ++ node.children) (visited ++ [node.get_mermaid_id])
termination_by q => nodesSize q
decreasing_by
  · have := nodeSize_pos node
    simp [nodesSize]
    omega
  · have := nodeSize_pos node
    obtain ⟨nm, p, t, cs⟩ := node
    simp [nodesSize_append, nodesSize, nodeSize, NextjsNode.children]
    omega

/-- The processed nodes of a whole emission, breadth-first from the root. -/
def bfsNodes (t : NextjsNode) : List NextjsNode := bfsVisit [t] []

/-- The three sections `genLoop` accumulates are exactly: a declaration line
per processed node in visit order, the children edges of each processed node
in discovery order, and a style line per processed node with a nonempty
style, appended to the initial accumulators. -/
theorem genLoop_spec :
    ∀ (queue : List NextjsNode) (visited lines edges styles : List String),
      genLoop queue visited lines edges styles =
        (lines ++ (bfsVisit queue visited).map declLine,
         edges ++ (bfsVisit queue visited).flatMap
           (fun n => n.children.map (edgeLine n)),
         styles ++ ((bfsVisit queue visited).filter
           (fun n => n.get_mermaid_style ≠ "")).map styleLine)
  | [], visited, lines, edges, styles => by
    simp [genLoop, bfsVisit]
  | node :: rest, visited, lines, edges, styles => by
    by_cases h : node.get_mermaid_id ∈ visited
    · rw [genLoop, bfsVisit]
      rw [if_pos h, if_pos h]
      exact genLoop_spec rest visited lines edges styles
    · rw [genLoop, bfsVisit]
      rw [if_neg h, if_neg h]
      rw [genLoop_spec (rest ++ node.children) (visited ++ [node.get_mermaid_id])]
      by_cases hs : node.get_mermaid_style ≠ ""
      · simp [hs, List.filter_cons, List.append_assoc]
      · simp only [Bool.not_eq_true, Decidable.not_not] at hs
        simp [hs, List.filter_cons, List.append_assoc]
termination_by q => nodesSize q
decreasing_by
  · have := nodeSize_pos node
    simp [nodesSize]
    omega
  · have := nodeSize_pos node
    obtain ⟨nm, p, t, cs⟩ := node
    simp [nodesSize_append, nodesSize, nodeSize, NextjsNode.children]
    omega

mutual
/-- All node types of a tree are among the four the crawler produces. -/
def wellTyped : NextjsNode → Bool
  | .mk _ _ t cs =>
    (t == "folder" || t == "dynamic" || t == "page" || t == "layout") &&
      allWellTyped cs

/-- `wellTyped` on every tree of a forest. -/
def allWellTyped : List NextjsNode → Bool
  | [] => true
  | c :: cs => wellTyped c && allWellTyped cs
end

theorem allWellTyped_mem {cs : List NextjsNode} (h : allWellTyped cs = true) :
    ∀ c ∈ cs, wellTyped c = true := by
  induction cs with
  | nil => simp
  | cons c cs ih =>
    rw [allWellTyped, Bool.and_eq_true] at h
    intro d hd
    rcases List.mem_cons.mp hd with rfl | hd
    · exact h.1
    · exact ih h.2 d hd

theorem wellTyped_subtrees : ∀ n : NextjsNode, wellTyped n = true →
    ∀ s ∈ allSubtrees n, s.node_type = "folder" ∨ s.node_type = "dynamic" ∨
      s.node_type = "page" ∨ s.node_type = "layout" := by
  refine nextjsNodeInd ?_
  intro nm p t cs ih h s hs
  rw [wellTyped, Bool.and_eq_true] at h
  rcases List.mem_cons.mp (by rwa [allSubtrees] at hs) with rfl | hs
  · have := h.1
    simp only [Bool.or_eq_true, beq_iff_eq] at this
    show t = "folder" ∨ t = "dynamic" ∨ t = "page" ∨ t = "layout"
    tauto
  · obtain ⟨c, hc, hsc⟩ := mem_allSubtreesL.mp hs
    exact ih c hc (allWellTyped_mem h.2 c hc) s hsc

/-- Each processed node comes from some tree of the starting queue. -/
theorem bfsVisit_subset :
    ∀ (queue : List NextjsNode) (visited : List String),
      ∀ n ∈ bfsVisit queue visited, n ∈ allSubtreesL queue
  | [], visited => by simp [bfsVisit]
  | node :: rest, visited => by
    intro n hn
    rw [allSubtreesL]
    by_cases h : node.get_mermaid_id ∈ visited
    · rw [bfsVisit, if_pos h] at hn
      have := bfsVisit_subset rest visited n hn
      exact List.mem_append_right _ this
    · rw [bfsVisit, if_neg h] at hn
      rcases List.mem_cons.mp hn with rfl | hn
      · obtain ⟨nm, p, t, cs⟩ := n
        exact List.mem_append_left _ (by rw [allSubtrees]; exact List.mem_cons_self _ _)
      · have := bfsVisit_subset (rest ++ node.children) (visited ++ [node.get_mermaid_id]) n hn
        rw [allSubtreesL_append] at this
        rcases List.mem_append.mp this with h1 | h1
        · exact List.mem_append_right _ h1
        · obtain ⟨nm, p, t, cs⟩ := node
          refine List.mem_append_left _ ?_
          rw [allSubtrees]
          exact List.mem_cons_of_mem _ h1
termination_by q => nodesSize q
decreasing_by
  · have := nodeSize_pos node
    simp [nodesSize]
    omega
  · have := nodeSize_pos node
    obtain ⟨nm, p, t, cs⟩ := node
    simp [nodesSize_append, nodesSize, nodeSize, NextjsNode.children]
    omega

/-- On the crawler's four node types, a nonempty style is exactly a
non-`folder` type. -/
theorem style_nonempty_iff_nonfolder {n : NextjsNode}
    (h : n.node_type = "folder" ∨ n.node_type = "dynamic" ∨
      n.node_type = "page" ∨ n.node_type = "layout") :
    (decide (n.get_mermaid_style ≠ "") : Bool) =
      decide (n.node_type ≠ "folder") := by
  have hne : ∀ x y : String, ("style " ++ x ++ y : String) ≠ "" := by
    intro x y heq
    have := congrArg String.data heq
    rw [String.data_append, String.data_append] at this
    simp at this
  rcases h with h | h | h | h <;>
    rw [NextjsNode.get_mermaid_style] <;> simp [h, hne]

/-- C6: the emitted text is exactly the newline join of: the header
`flowchart TD`; one declaration line per processed node in breadth-first
order; one edge line per parent-child link in discovery order; then one
style line per processed non-`folder` node in visit order — declarations,
then edges, then styles.  (Hypothesis: the tree's types are the four the
crawler produces, so "styled" and "non-folder" coincide.) -/
theorem claim_C6_output_assembly (t : NextjsNode) (h : wellTyped t = true) :
    generate_mermaid t =
      String.intercalate "\n"
        (["flowchart TD"] ++ (bfsNodes t).map declLine ++
         (bfsNodes t).flatMap (fun n => n.children.map (edgeLine n)) ++
         ((bfsNodes t).filter (fun n => n.node_type ≠ "folder")).map styleLine) := by
  rw [generate_mermaid]
  rw [genLoop_spec]
  have hfil : (bfsNodes t).filter (fun n => n.get_mermaid_style ≠ "") =
      (bfsNodes t).filter (fun n => n.node_type ≠ "folder") := by
    refine List.filter_congr ?_
    intro n hn
    have hsub : n ∈ allSubtreesL [t] := bfsVisit_subset [t] [] n hn
    rw [allSubtreesL, allSubtreesL, List.append_nil] at hsub
    exact style_nonempty_iff_nonfolder (wellTyped_subtrees t h n hsub)
  show String.intercalate "\n"
      ((["flowchart TD"] ++ (bfsNodes t).map declLine) ++
       ([] ++ (bfsNodes t).flatMap (fun n => n.children.map (edgeLine n))) ++
       ([] ++ ((bfsNodes t).filter (fun n => n.get_mermaid_style ≠ "")).map styleLine)) = _
  rw [hfil]
  simp [List.append_assoc]

/-- A small well-typed tree: a root folder with one page child. -/
def tC6 : NextjsNode :=
  .mk "app" "app" "folder" [.mk "page.tsx" "app/page.tsx" "page" []]

theorem claim_C6_witness :
    wellTyped tC6 = true ∧
    generate_mermaid tC6 =
      String.intercalate "\n"
        (["flowchart TD"] ++ (bfsNodes tC6).map declLine ++
         (bfsNodes tC6).flatMap (fun n => n.children.map (edgeLine n)) ++
         ((bfsNodes tC6).filter (fun n => n.node_type ≠ "folder")).map styleLine) :=
  ⟨by decide, claim_C6_output_assembly tC6 (by decide)⟩

/-! ### C9: the visited set is keyed on identifiers -/

/-- The identifiers of the processed nodes are pairwise distinct and avoid
the incoming visited set. -/
theorem bfsVisit_ids_nodup :
    ∀ (queue : List NextjsNode) (visited : List String),
      ((bfsVisit queue visited).map NextjsNode.get_mermaid_id).Nodup ∧
      ∀ n ∈ bfsVisit queue visited, n.get_mermaid_id ∉ visited
  | [], visited => by simp [bfsVisit]
  | node :: rest, visited => by
    by_cases h : node.get_mermaid_id ∈ visited
    · rw [bfsVisit, if_pos h]
      exact bfsVisit_ids_nodup rest visited
    · rw [bfsVisit, if_neg h]
      obtain ⟨hnd, havoid⟩ :=
        bfsVisit_ids_nodup (rest ++ node.children) (visited ++ [node.get_mermaid_id])
      constructor
      · rw [List.map_cons, List.nodup_cons]
        refine ⟨?_, hnd⟩
        intro hmem
        obtain ⟨m, hm, hid⟩ := List.mem_map.mp hmem
        exact havoid m hm (by rw [← hid]; exact List.mem_append_right _ (by simp))
      · intro n hn
        rcases List.mem_cons.mp hn with rfl | hn
        · exact h
        · intro hv
          exact havoid n hn (List.mem_append_left _ hv)
termination_by q => nodesSize q
decreasing_by
  · have := nodeSize_pos node
    simp [nodesSize]
    omega
  · have := nodeSize_pos node
    obtain ⟨nm, p, t, cs⟩ := node
    simp [nodesSize_append, nodesSize, nodeSize, NextjsNode.children]
    omega

/-- C9: for every input tree — including trees where two distinct nodes
share a generated identifier — the emission loop declares and styles at most
one node per identifier: the declaration section is the header plus one line
per processed node, the processed identifiers are pairwise distinct (a later
node with an already-visited identifier is silently skipped), the style
section is a subset of the processed nodes (hence also at most one per
identifier), while the edge section holds one line per parent-child link of
every processed node, even when the child itself is later skipped. -/
theorem claim_C9_visited_set_semantics (t : NextjsNode) :
    (genLoop [t] [] ["flowchart TD"] [] []).1 =
      "flowchart TD" :: (bfsNodes t).map declLine ∧
    ((bfsNodes t).map NextjsNode.get_mermaid_id).Nodup ∧
    (genLoop [t] [] ["flowchart TD"] [] []).2.2 =
      ((bfsNodes t).filter (fun n => n.get_mermaid_style ≠ "")).map styleLine ∧
    (((bfsNodes t).filter (fun n => n.get_mermaid_style ≠ "")).map
      NextjsNode.get_mermaid_id).Nodup ∧
    (genLoop [t] [] ["flowchart TD"] [] []).2.1 =
      (bfsNodes t).flatMap (fun n => n.children.map (edgeLine n)) := by
  have hspec := genLoop_spec [t] [] ["flowchart TD"] [] []
  have hnd := (bfsVisit_ids_nodup [t] []).1
  refine ⟨?_, hnd, ?_, ?_, ?_⟩
  · rw [hspec, bfsNodes]
    simp
  · rw [hspec, bfsNodes]
    simp
  · exact List.Nodup.sublist
      (List.Sublist.map NextjsNode.get_mermaid_id (List.filter_sublist _)) hnd
  · rw [hspec, bfsNodes]
    simp

/-! ### C5: the pipeline on a missing root path -/

/-- `save_to_file(content, filename)`: the pair the writer persists (the
output artifact: filename and content). -/
def save_to_file (content : String) (filename : String) : String × String :=
  (filename, content)

/-- `main`: crawl, prune, emit, save.  `crawl_nextjs_project` terminates the
process on a missing root (`sys.exit(1)`), so the remaining stages run only
on a crawled tree; an error means no output file is written.  The default
output filename is `nextjs_project_structure.mmd`. -/
def main_model (fs : Option FSDir) (output_file : String) :
    Except String (String × String) :=
  match crawl_nextjs_project fs with
  | .error e => .error e
  | .ok root_node =>
    let pruned_root := prune_tree root_node
    let mermaid_diagram := generate_mermaid pruned_root
    .ok (save_to_file mermaid_diagram output_file)

/-- C5: when the root path does not exist, `crawl_nextjs_project` fails with
a terminal error and no partial tree, and the pipeline produces no output
file (whatever the output filename); in general the pipeline produces an
output file exactly when the root path exists — an error is never recovered
into partial output. -/
theorem claim_C5_missing_root_terminal :
    crawl_nextjs_project none = Except.error "Error: Path does not exist" ∧
    (∀ output_file : String,
      main_model none output_file = Except.error "Error: Path does not exist") ∧
    (∀ (fs : Option FSDir) (output_file : String),
      (∃ out, main_model fs output_file = Except.ok out) ↔ ∃ d, fs = some d) := by
  refine ⟨rfl, fun _ => rfl, ?_⟩
  intro fs output_file
  cases fs with
  | none => simp [main_model, crawl_nextjs_project]
  | some d => simp [main_model, crawl_nextjs_project]

/-! ### C4: path algebra for the walk -/

/-- No slash in a name (true of every real filesystem entry name). -/
def slashFree (s : String) : Bool := s.data.all (fun c => c != '/')

theorem slashFree_iff {s : String} :
    slashFree s = true ↔ ∀ c ∈ s.data, c ≠ '/' := by
  simp [slashFree]

/-- A character-list tail that is either empty or starts at a path
separator. -/
def headSlash (t : List Char) : Prop := t = [] ∨ ∃ t', t = '/' :: t'

/-- Splitting a path at its first segment is unambiguous: a slash-free
segment followed by a separator-headed tail determines both. -/
theorem segAppend_inj (x : List Char) :
    ∀ (t y u : List Char), (∀ c ∈ x, c ≠ '/') → (∀ c ∈ y, c ≠ '/') →
      headSlash t → headSlash u → x ++ t = y ++ u → x = y ∧ t = u := by
  induction x with
  | nil =>
    intro t y u _ hy ht _ h
    cases y with
    | nil => simpa using h
    | cons b y' =>
      rw [List.nil_append, List.cons_append] at h
      rcases ht with rfl | ⟨t', rfl⟩
      · simp at h
      · have hb : '/' = b := by injection h
        exact absurd hb.symm (hy b (by simp))
  | cons a x' ih =>
    intro t y u hx hy ht hu h
    cases y with
    | nil =>
      rw [List.cons_append, List.nil_append] at h
      rcases hu with rfl | ⟨u', rfl⟩
      · simp at h
      · have ha : a = '/' := by injection h
        exact absurd ha (hx a (by simp))
    | cons b y' =>
      rw [List.cons_append, List.cons_append] at h
      have h1 : a = b := by injection h
      have h2 : x' ++ t = y' ++ u := by injection h
      obtain ⟨hxy, htu⟩ := ih t y' u (fun c hc => hx c (by simp [hc]))
        (fun c hc => hy c (by simp [hc])) ht hu h2
      exact ⟨by rw [h1, hxy], htu⟩

/-- Data of `p ++ "/" ++ x`. -/
theorem pathSep_data (p x : String) :
    (p ++ "/" ++ x).data = p.data ++ '/' :: x.data := by
  rw [String.data_append, String.data_append]
  have : ("/" : String).data = ['/'] := rfl
  rw [this, List.append_assoc]
  rfl

/-- Appending a fixed path and separator is injective in the final
segment. -/
theorem pathSep_inj {p x y : String} (h : p ++ "/" ++ x = p ++ "/" ++ y) :
    x = y := by
  have hd := congrArg String.data h
  rw [pathSep_data, pathSep_data] at hd
  have := List.append_cancel_left hd
  exact String.ext (by injection this)

/-- A file qualifies when it is a page or a layout file (the walk's guard). -/
def isQualFile (fn : String) : Bool := is_page_file fn || is_layout_file fn

mutual
/-- The dict keys registered while walking the subtree of a directory at
relative path `p`, in registration order: one per subdirectory, one per
qualifying file, then the keys of the recursive descents.  (The entry for
the directory itself was registered by its parent, or is the seeded root.) -/
def addedKeys (p : String) : FSDir → List String
  | .mk _ ds fs =>
    ds.map (fun c => p ++ "/" ++ c.name) ++
    (fs.filter isQualFile).map (fun f => p ++ "/" ++ f) ++
    addedKeysList p ds

/-- `addedKeys` of each subtree of a forest below path `p`. -/
def addedKeysList (p : String) : List FSDir → List String
  | [] => []
  | d :: ds => addedKeys (p ++ "/" ++ d.name) d ++ addedKeysList p ds
end

theorem mem_addedKeysList {q : String} {p : String} {ds : List FSDir} :
    q ∈ addedKeysList p ds ↔
      ∃ c ∈ ds, q ∈ addedKeys (p ++ "/" ++ c.name) c := by
  induction ds with
  | nil => simp [addedKeysList]
  | cons c ds ih =>
    simp only [addedKeysList, List.mem_append, ih, List.mem_cons]
    constructor
    · rintro (h | ⟨d, hd, hq⟩)
      · exact ⟨c, Or.inl rfl, h⟩
      · exact ⟨d, Or.inr hd, hq⟩
    · rintro ⟨d, (rfl | hd), hq⟩
      · exact Or.inl hq
      · exact Or.inr ⟨d, hd, hq⟩

/-- Executable no-duplicates check. -/
def nodupB : List String → Bool
  | [] => true
  | x :: xs => !(xs.contains x) && nodupB xs

theorem nodupB_iff {l : List String} : nodupB l = true ↔ l.Nodup := by
  induction l with
  | nil => simp [nodupB]
  | cons x xs ih => simp [nodupB, ih, List.nodup_cons]

mutual
/-- Well-formed filesystem tree: names carry no slash, and the entries of
each directory have pairwise distinct names. -/
def FSwf : FSDir → Bool
  | .mk nm ds fs =>
    slashFree nm && fs.all slashFree && nodupB (ds.map FSDir.name ++ fs) &&
      allFSwf ds

/-- `FSwf` on every tree of a forest. -/
def allFSwf : List FSDir → Bool
  | [] => true
  | d :: ds => FSwf d && allFSwf ds
end

theorem allFSwf_mem {ds : List FSDir} (h : allFSwf ds = true) :
    ∀ d ∈ ds, FSwf d = true := by
  induction ds with
  | nil => simp
  | cons d ds ih =>
    rw [allFSwf, Bool.and_eq_true] at h
    intro e he
    rcases List.mem_cons.mp he with rfl | he
    · exact h.1
    · exact ih h.2 e he

theorem FSwf_fields {nm : String} {ds : List FSDir} {fs : List String}
    (h : FSwf (.mk nm ds fs) = true) :
    slashFree nm = true ∧ (∀ f ∈ fs, slashFree f = true) ∧
    (ds.map FSDir.name ++ fs).Nodup ∧ ∀ d ∈ ds, FSwf d = true := by
  rw [FSwf, Bool.and_eq_true, Bool.and_eq_true, Bool.and_eq_true] at h
  obtain ⟨⟨⟨h1, h2⟩, h3⟩, h4⟩ := h
  exact ⟨h1, by simpa [List.all_eq_true] using h2, nodupB_iff.mp h3,
    allFSwf_mem h4⟩

theorem FSwf_name_slashFree {d : FSDir} (h : FSwf d = true) :
    slashFree d.name = true := by
  obtain ⟨nm, ds, fs⟩ := d
  exact (FSwf_fields h).1

/-- Every registered key extends its directory's path by a separator, a
first segment naming an entry of that directory, and a separator-headed
remainder. -/
theorem addedKeys_shape : ∀ (d : FSDir) (p : String), ∀ q ∈ addedKeys p d,
    ∃ (x : String) (t : List Char),
      q.data = (p.data ++ ('/' :: x.data)) ++ t ∧ headSlash t ∧
      x ∈ d.dirs.map FSDir.name ++ d.files := by
  refine fsDirInd ?_
  intro nm ds fs ih p q hq
  rw [addedKeys] at hq
  rcases List.mem_append.mp hq with h12 | h3
  · rcases List.mem_append.mp h12 with h1 | h2
    · obtain ⟨c, hc, rfl⟩ := List.mem_map.mp h1
      refine ⟨c.name, [], by rw [pathSep_data, List.append_nil], Or.inl rfl, ?_⟩
      exact List.mem_append_left _ (List.mem_map.mpr ⟨c, hc, rfl⟩)
    · obtain ⟨f, hf, rfl⟩ := List.mem_map.mp h2
      refine ⟨f, [], by rw [pathSep_data, List.append_nil], Or.inl rfl, ?_⟩
      exact List.mem_append_right _ (List.mem_filter.mp hf).1
  · obtain ⟨c, hc, hqc⟩ := mem_addedKeysList.mp h3
    obtain ⟨x', t', hdata, _, _⟩ := ih c hc (p ++ "/" ++ c.name) q hqc
    refine ⟨c.name, ('/' :: x'.data) ++ t', ?_,
      Or.inr ⟨x'.data ++ t', by rw [List.cons_append]⟩, ?_⟩
    · rw [hdata, pathSep_data]
      exact List.append_assoc _ _ _
    · exact List.mem_append_left _ (List.mem_map.mpr ⟨c, hc, rfl⟩)

/-- Keys added below a forest name one of the forest's directories as their
first segment and continue past it. -/
theorem addedKeysList_shape {ds : List FSDir} {p q : String}
    (hq : q ∈ addedKeysList p ds) :
    ∃ (x : String) (t : List Char),
      q.data = (p.data ++ ('/' :: x.data)) ++ ('/' :: t) ∧
      x ∈ ds.map FSDir.name := by
  obtain ⟨c, hc, hqc⟩ := mem_addedKeysList.mp hq
  obtain ⟨x', t', hdata, _, _⟩ := addedKeys_shape c (p ++ "/" ++ c.name) q hqc
  refine ⟨c.name, x'.data ++ t', ?_, List.mem_map.mpr ⟨c, hc, rfl⟩⟩
  rw [hdata, pathSep_data, List.append_assoc, List.cons_append]

/-- Shared cancellation step: two keys that extend `p` by first segments
`x1`, `x2` and separator-headed tails agree only if the first segments
agree. -/
theorem firstSeg_eq {p : String} {x1 x2 : String} {t1 t2 : List Char}
    (h1 : ∀ c ∈ x1.data, c ≠ '/') (h2 : ∀ c ∈ x2.data, c ≠ '/')
    (ht1 : headSlash t1) (ht2 : headSlash t2)
    (h : (p.data ++ ('/' :: x1.data)) ++ t1 = (p.data ++ ('/' :: x2.data)) ++ t2) :
    x1 = x2 ∧ t1 = t2 := by
  rw [List.append_assoc, List.append_assoc] at h
  have hcan := List.append_cancel_left h
  rw [List.cons_append, List.cons_append] at hcan
  have hcc : x1.data ++ t1 = x2.data ++ t2 := by injection hcan
  obtain ⟨hx, ht⟩ := segAppend_inj x1.data t1 x2.data t2 h1 h2 ht1 ht2 hcc
  exact ⟨String.ext hx, ht⟩

theorem addedKeysList_nodup (ds : List FSDir) (p : String)
    (hwf : ∀ c ∈ ds, FSwf c = true)
    (hnames : (ds.map FSDir.name).Nodup)
    (ih : ∀ c ∈ ds, ∀ p' : String, (addedKeys p' c).Nodup) :
    (addedKeysList p ds).Nodup := by
  induction ds with
  | nil => simp [addedKeysList]
  | cons c ds ihl =>
    rw [addedKeysList]
    rw [List.map_cons, List.nodup_cons] at hnames
    refine List.nodup_append.mpr
      ⟨ih c (List.mem_cons_self c ds) _,
       ihl (fun d hd => hwf d (List.mem_cons_of_mem c hd)) hnames.2
         (fun d hd => ih d (List.mem_cons_of_mem c hd)), ?_⟩
    intro q hqL hqR
    have hL : q ∈ addedKeysList p [c] := by
      rw [addedKeysList, addedKeysList]
      exact List.mem_append_left _ hqL
    obtain ⟨x1, t1, hd1, hx1⟩ := addedKeysList_shape hL
    obtain ⟨x2, t2, hd2, hx2⟩ := addedKeysList_shape hqR
    rw [List.map_cons, List.map_nil, List.mem_singleton] at hx1
    subst hx1
    obtain ⟨c2, hc2, rfl⟩ := List.mem_map.mp hx2
    obtain ⟨hname, _⟩ := firstSeg_eq
      (slashFree_iff.mp (FSwf_name_slashFree (hwf c (List.mem_cons_self c ds))))
      (slashFree_iff.mp (FSwf_name_slashFree (hwf c2 (List.mem_cons_of_mem c hc2))))
      (Or.inr ⟨t1, rfl⟩) (Or.inr ⟨t2, rfl⟩) (hd1 ▸ hd2)
    exact hnames.1 (hname ▸ List.mem_map.mpr ⟨c2, hc2, rfl⟩)

/-- The keys added below one directory are pairwise distinct (well-formed
trees). -/
theorem addedKeys_nodup : ∀ d : FSDir, FSwf d = true →
    ∀ p : String, (addedKeys p d).Nodup := by
  refine fsDirInd ?_
  intro nm ds fs ih hwf p
  obtain ⟨hnm, hfsl, hnodup, hchild⟩ := FSwf_fields hwf
  have hnames : (ds.map FSDir.name).Nodup := hnodup.of_append_left
  have hfiles : fs.Nodup := hnodup.of_append_right
  have hdisj : (ds.map FSDir.name).Disjoint fs :=
    List.disjoint_of_nodup_append hnodup
  have hnameSF : ∀ x ∈ ds.map FSDir.name, slashFree x = true := by
    intro x hx
    obtain ⟨c, hc, rfl⟩ := List.mem_map.mp hx
    exact FSwf_name_slashFree (hchild c hc)
  rw [addedKeys]
  have hB1 : ((ds.map FSDir.name).map (fun x => p ++ "/" ++ x)).Nodup :=
    hnames.map (fun a b h => pathSep_inj h)
  have hB1' : (ds.map (fun c => p ++ "/" ++ c.name)).Nodup := by
    rw [List.map_map] at hB1
    exact hB1
  have hB2 : ((fs.filter isQualFile).map (fun f => p ++ "/" ++ f)).Nodup :=
    (hfiles.filter _).map (fun a b h => pathSep_inj h)
  have hB3 : (addedKeysList p ds).Nodup :=
    addedKeysList_nodup ds p hchild hnames (fun c hc p' => ih c hc (hchild c hc) p')
  have hd12 : (ds.map (fun c => p ++ "/" ++ c.name)).Disjoint
      ((fs.filter isQualFile).map (fun f => p ++ "/" ++ f)) := by
    intro q hq1 hq2
    obtain ⟨c, hc, rfl⟩ := List.mem_map.mp hq1
    obtain ⟨f, hf, hqf⟩ := List.mem_map.mp hq2
    have : f = c.name := pathSep_inj hqf
    subst this
    exact hdisj (List.mem_map.mpr ⟨c, hc, rfl⟩) (List.mem_filter.mp hf).1
  refine List.nodup_append.mpr
    ⟨List.nodup_append.mpr ⟨hB1', hB2, hd12⟩, hB3, ?_⟩
  intro q hq12 hq3
  obtain ⟨x2, t2, hd2, hx2⟩ := addedKeysList_shape hq3
  have hone : ∃ x : String, slashFree x = true ∧ q = p ++ "/" ++ x := by
    rcases List.mem_append.mp hq12 with hq1 | hq2
    · obtain ⟨c, hc, rfl⟩ := List.mem_map.mp hq1
      exact ⟨c.name, hnameSF c.name (List.mem_map.mpr ⟨c, hc, rfl⟩), rfl⟩
    · obtain ⟨f, hf, rfl⟩ := List.mem_map.mp hq2
      exact ⟨f, hfsl f (List.mem_filter.mp hf).1, rfl⟩
  obtain ⟨x1, hx1sf, rfl⟩ := hone
  have hd1 : (p ++ "/" ++ x1).data = (p.data ++ ('/' :: x1.data)) ++ [] := by
    rw [pathSep_data, List.append_nil]
  obtain ⟨_, hcontra⟩ := firstSeg_eq
    (slashFree_iff.mp hx1sf)
    (by
      obtain ⟨c2, hc2, rfl⟩ := List.mem_map.mp hx2
      exact slashFree_iff.mp (FSwf_name_slashFree (hchild c2 hc2)))
    (Or.inl rfl) (Or.inr ⟨t2, rfl⟩) (hd1 ▸ hd2)
  exact absurd hcontra (by simp)

/-! ### C4: folding the walk over the dict -/

theorem dictInsert_keys_fresh {st : List (String × CrawlNode)} {k : String}
    (v : CrawlNode) (h : k ∉ keysOf st) :
    keysOf (dictInsert st k v) = keysOf st ++ [k] := by
  rw [dictInsert, if_neg (by rw [keysOf] at h; exact h)]
  simp [keysOf]

theorem foldInsert_keys {α : Type} (key : α → String) (val : α → CrawlNode) :
    ∀ (xs : List α) (st : List (String × CrawlNode)),
      (xs.map key).Nodup → (∀ x ∈ xs, key x ∉ keysOf st) →
      keysOf (xs.foldl (fun s x => dictInsert s (key x) (val x)) st) =
        keysOf st ++ xs.map key := by
  intro xs
  induction xs with
  | nil => intro st _ _; simp
  | cons x xs ih =>
    intro st hnd hfresh
    rw [List.foldl_cons]
    rw [List.map_cons, List.nodup_cons] at hnd
    rw [ih (dictInsert st (key x) (val x)) hnd.2 ?_]
    · rw [dictInsert_keys_fresh (val x) (hfresh x (List.mem_cons_self x xs))]
      simp
    · intro y hy
      rw [dictInsert_keys_fresh (val x) (hfresh x (List.mem_cons_self x xs))]
      intro hmem
      rcases List.mem_append.mp hmem with hmem | hmem
      · exact hfresh y (List.mem_cons_of_mem x hy) hmem
      · rw [List.mem_singleton] at hmem
        exact hnd.1 (hmem ▸ List.mem_map.mpr ⟨y, hy, rfl⟩)

/-- The guarded file loop only ever inserts the qualifying files. -/
theorem foldGuard_eq_filter (p : String) :
    ∀ (fs : List String) (st : List (String × CrawlNode)),
      fs.foldl (fun s fn =>
        if is_page_file fn || is_layout_file fn then
          dictInsert s (p ++ "/" ++ fn) ⟨fn, classifyFilename fn⟩
        else s) st =
      (fs.filter isQualFile).foldl (fun s fn =>
        dictInsert s (p ++ "/" ++ fn) ⟨fn, classifyFilename fn⟩) st := by
  intro fs
  induction fs with
  | nil => intro st; rfl
  | cons fn fs ih =>
    intro st
    rw [List.foldl_cons, List.filter_cons]
    by_cases h : isQualFile fn = true
    · rw [if_pos h, List.foldl_cons]
      rw [isQualFile] at h
      rw [if_pos h, ih]
    · rw [if_neg h]
      rw [isQualFile] at h
      rw [if_neg h, ih]

/-- The keys one walk step registers, in order. -/
def entryKeys (p : String) (dns fns : List String) : List String :=
  dns.map (fun dn => p ++ "/" ++ dn) ++
    (fns.filter isQualFile).map (fun f => p ++ "/" ++ f)

theorem processEntry_keys (st : List (String × CrawlNode)) (p : String)
    (dns fns : List String)
    (hp : p ∈ keysOf st)
    (hnd : (entryKeys p dns fns).Nodup)
    (hfresh : ∀ q ∈ entryKeys p dns fns, q ∉ keysOf st) :
    keysOf (processEntry st (p, dns, fns)) = keysOf st ++ entryKeys p dns fns := by
  rw [entryKeys] at hnd hfresh
  show keysOf
      ((fns.foldl (fun s fn =>
        if is_page_file fn || is_layout_file fn then
          dictInsert s (p ++ "/" ++ fn) ⟨fn, classifyFilename fn⟩
        else s)
        (dns.foldl (fun s dn =>
          dictInsert s (p ++ "/" ++ dn) ⟨dn, classifyDirname dn⟩)
          (if p ∈ st.map Prod.fst then st
           else dictInsert st p
             ⟨os_basename p, classifyDirname (os_basename p)⟩)))) = _
  rw [if_pos (by rw [keysOf] at hp; exact hp)]
  rw [foldGuard_eq_filter]
  have h2 : keysOf (dns.foldl (fun s dn =>
      dictInsert s (p ++ "/" ++ dn) ⟨dn, classifyDirname dn⟩) st) =
      keysOf st ++ dns.map (fun dn => p ++ "/" ++ dn) :=
    foldInsert_keys (fun dn => p ++ "/" ++ dn) (fun dn => ⟨dn, classifyDirname dn⟩)
      dns st hnd.of_append_left
      (fun x hx => hfresh _ (List.mem_append_left _ (List.mem_map.mpr ⟨x, hx, rfl⟩)))
  rw [foldInsert_keys (fun f => p ++ "/" ++ f) (fun f => ⟨f, classifyFilename f⟩)
      (fns.filter isQualFile) _ hnd.of_append_right ?_, h2]
  · rw [entryKeys, List.append_assoc]
  · intro f hf
    rw [h2]
    intro hmem
    rcases List.mem_append.mp hmem with hmem | hmem
    · exact hfresh _ (List.mem_append_right _ (List.mem_map.mpr ⟨f, hf, rfl⟩)) hmem
    · exact List.disjoint_of_nodup_append hnd hmem
        (List.mem_map.mpr ⟨f, hf, rfl⟩)

theorem fsSize_pos (d : FSDir) : 0 < fsSize d := by
  obtain ⟨nm, ds, fs⟩ := d
  rw [fsSize]
  omega

mutual
/-- Folding the walk of one subtree over the dict: starting from a state
that already maps the subtree's own path, and with the subtree's keys fresh,
the walk appends exactly the subtree's keys, in registration order. -/
theorem fold_walk_keys : ∀ (d : FSDir) (p : String)
    (st : List (String × CrawlNode)),
    p ∈ keysOf st → (addedKeys p d).Nodup →
    (∀ q ∈ addedKeys p d, q ∉ keysOf st) →
    keysOf ((walkEntries p d).foldl processEntry st) = keysOf st ++ addedKeys p d
  | .mk nm ds fs, p, st => by
    intro hp hnd hfresh
    rw [walkEntries, List.foldl_cons]
    rw [addedKeys] at hnd hfresh ⊢
    have hek : entryKeys p (ds.map FSDir.name) fs =
        ds.map (fun c => p ++ "/" ++ c.name) ++
          (fs.filter isQualFile).map (fun f => p ++ "/" ++ f) := by
      rw [entryKeys, List.map_map]
      rfl
    have h1 : keysOf (processEntry st (p, ds.map FSDir.name, fs)) =
        keysOf st ++ entryKeys p (ds.map FSDir.name) fs := by
      refine processEntry_keys st p (ds.map FSDir.name) fs hp ?_ ?_
      · rw [hek]; exact hnd.of_append_left
      · rw [hek]
        intro q hq
        exact hfresh q (List.mem_append_left _ hq)
    rw [fold_walkList_keys ds p (processEntry st (p, ds.map FSDir.name, fs))
        ?_ hnd.of_append_right ?_, h1, hek, List.append_assoc]
    · intro c hc
      rw [h1, hek]
      refine List.mem_append_right _ (List.mem_append_left _ ?_)
      exact List.mem_map.mpr ⟨c, hc, rfl⟩
    · intro q hq
      rw [h1, hek]
      intro hmem
      rcases List.mem_append.mp hmem with hmem | hmem
      · exact hfresh q (List.mem_append_right _ hq) hmem
      · exact List.disjoint_of_nodup_append hnd hmem hq
termination_by d => 2 * fsSize d
decreasing_by
  simp [fsSize]
  omega

/-- The same for the remaining descents of a forest whose own entries are
already registered. -/
theorem fold_walkList_keys : ∀ (ds : List FSDir) (p : String)
    (st : List (String × CrawlNode)),
    (∀ c ∈ ds, (p ++ "/" ++ c.name) ∈ keysOf st) →
    (addedKeysList p ds).Nodup →
    (∀ q ∈ addedKeysList p ds, q ∉ keysOf st) →
    keysOf ((walkList p ds).foldl processEntry st) =
      keysOf st ++ addedKeysList p ds
  | [], p, st => by
    intro _ _ _
    rw [walkList, addedKeysList, List.foldl_nil, List.append_nil]
  | c :: ds, p, st => by
    intro hpres hnd hfresh
    rw [walkList, List.foldl_append]
    rw [addedKeysList] at hnd hfresh ⊢
    have h1 : keysOf ((walkEntries (p ++ "/" ++ c.name) c).foldl processEntry st) =
        keysOf st ++ addedKeys (p ++ "/" ++ c.name) c := by
      refine fold_walk_keys c (p ++ "/" ++ c.name) st
        (hpres c (List.mem_cons_self c ds)) hnd.of_append_left ?_
      intro q hq
      exact hfresh q (List.mem_append_left _ hq)
    rw [fold_walkList_keys ds p _ ?_ hnd.of_append_right ?_, h1, List.append_assoc]
    · intro d hd
      rw [h1]
      exact List.mem_append_left _ (hpres d (List.mem_cons_of_mem c hd))
    · intro q hq
      rw [h1]
      intro hmem
      rcases List.mem_append.mp hmem with hmem | hmem
      · exact hfresh q (List.mem_append_right _ hq) hmem
      · exact List.disjoint_of_nodup_append hnd hmem hq
termination_by ds => 2 * fsListSize ds + 1
decreasing_by
  · simp [fsListSize]
    omega
  · have := fsSize_pos c
    simp [fsListSize]
    omega
end

mutual
/-- Number of directories of a tree (the root included). -/
def numDirs : FSDir → Nat
  | .mk _ ds _ => 1 + numDirsList ds

/-- Number of directories of a forest. -/
def numDirsList : List FSDir → Nat
  | [] => 0
  | d :: ds => numDirs d + numDirsList ds
end

mutual
/-- Number of qualifying (page or layout) files of a tree. -/
def numQualFiles : FSDir → Nat
  | .mk _ ds fs => (fs.filter isQualFile).length + numQualFilesList ds

/-- Number of qualifying files of a forest. -/
def numQualFilesList : List FSDir → Nat
  | [] => 0
  | d :: ds => numQualFiles d + numQualFilesList ds
end

theorem addedKeys_length : ∀ d : FSDir, ∀ p : String,
    (addedKeys p d).length + 1 = numDirs d + numQualFiles d := by
  refine fsDirInd ?_
  intro nm ds fs ih p
  have hlist : ∀ (l : List FSDir), (∀ c ∈ l, ∀ p' : String,
      (addedKeys p' c).length + 1 = numDirs c + numQualFiles c) →
      ∀ p' : String, (addedKeysList p' l).length + l.length =
        numDirsList l + numQualFilesList l := by
    intro l
    induction l with
    | nil => intro _ _; rfl
    | cons c cs ihl =>
      intro hm p'
      rw [addedKeysList, numDirsList, numQualFilesList, List.length_append,
          List.length_cons]
      have h1 := hm c (List.mem_cons_self c cs) (p' ++ "/" ++ c.name)
      have h2 := ihl (fun d hd => hm d (List.mem_cons_of_mem c hd)) p'
      omega
  rw [addedKeys, numDirs, numQualFiles, List.length_append, List.length_append,
      List.length_map, List.length_map]
  have := hlist ds ih p
  omega

/-- C4: over every well-formed directory tree (entry names without path
separators, siblings pairwise distinct — true of a real filesystem), the
`path_to_node` mapping holds exactly one node per distinct relative path
(its keys are pairwise distinct; a revisited path reuses the mapped node
rather than inserting again), and its size equals the number of directories
plus the number of qualifying page/layout files visited. -/
theorem claim_C4_one_node_per_path (root : FSDir) (h : FSwf root = true) :
    (keysOf (path_to_node root)).Nodup ∧
    (path_to_node root).length = numDirs root + numQualFiles root := by
  have hslash : ∀ q ∈ addedKeys root.name root, q ≠ root.name := by
    intro q hq heq
    obtain ⟨x, t, hdata, _, _⟩ := addedKeys_shape root root.name q hq
    have hmem : '/' ∈ q.data := by
      rw [hdata]
      exact List.mem_append_left _
        (List.mem_append_right _ (List.mem_cons_self _ _))
    rw [heq] at hmem
    exact slashFree_iff.mp (FSwf_name_slashFree h) '/' hmem rfl
  have hkeys : keysOf (path_to_node root) =
      root.name :: addedKeys root.name root := by
    rw [path_to_node]
    rw [fold_walk_keys root root.name
      [(root.name, ⟨root.name, "folder"⟩)]
      (by simp [keysOf]) (addedKeys_nodup root h root.name) ?_]
    · rw [keysOf]
      rfl
    · intro q hq hmem
      rw [keysOf] at hmem
      simp only [List.map_cons, List.map_nil, List.mem_singleton] at hmem
      exact hslash q hq hmem
  refine ⟨?_, ?_⟩
  · rw [hkeys, List.nodup_cons]
    exact ⟨fun hm => hslash _ hm rfl, addedKeys_nodup root h root.name⟩
  · have hlen : (path_to_node root).length =
        (root.name :: addedKeys root.name root).length := by
      rw [← hkeys, keysOf, List.length_map]
    rw [hlen, List.length_cons]
    have := addedKeys_length root root.name
    omega

/-- A concrete well-formed project for the C4 witness: root `app` holding
`layout.tsx`, a non-qualifying `style.css`, and a subdirectory `about` with
a `page.tsx`. -/
def fsC4 : FSDir :=
  .mk "app" [.mk "about" [] ["page.tsx"]] ["layout.tsx", "style.css"]

theorem claim_C4_witness :
    FSwf fsC4 = true ∧
    ((keysOf (path_to_node fsC4)).Nodup ∧
     (path_to_node fsC4).length = numDirs fsC4 + numQualFiles fsC4) :=
  ⟨by decide, claim_C4_one_node_per_path fsC4 (by decide)⟩
